import Mathlib

/- Shallow embedding of the proportional-allocation core of
   SPP_Ingredients_Allocation_App.py (functions calculate_proportion and
   allocate_quantity).  Machine floats are modelled as exact rationals, and
   pandas dataframes as lists of records in row order.  pandas
   sort_values / groupby are modelled with stable sorts (groupby sorts keys
   ascending; ties under sort_values keep the current row order). -/

/-- One historical issuance row of the transaction table, restricted to the
columns the core reads (ITEM_NAME, ITEM_SERIAL, DEPARTMENT, QUANTITY). -/
structure Transaction where
  item_name : String
  item_serial : String
  department : String
  quantity : ℚ
deriving DecidableEq, Repr

/-- One row of the dataframe produced by calculate_proportion
(columns DEPARTMENT, QUANTITY, PROPORTION). -/
structure PropRow where
  department : String
  quantity : ℚ
  proportion : ℚ
deriving DecidableEq, Repr

/-- One row of the dataframe returned by allocate_quantity
(columns DEPARTMENT, QUANTITY, PROPORTION, ALLOCATED_QUANTITY). -/
structure AllocRow where
  department : String
  quantity : ℚ
  proportion : ℚ
  allocated_quantity : ℤ
deriving DecidableEq, Repr

/-- Leading-segment test on char lists, used to implement substring
containment. -/
def leadsWith : List Char → List Char → Bool
  | [], _ => true
  | _ :: _, [] => false
  | a :: as, b :: bs => a == b && leadsWith as bs

/-- Containment of pat as a contiguous substring of the second list. -/
def hasSub (pat : List Char) : List Char → Bool
  | [] => pat.isEmpty
  | c :: rest => leadsWith pat (c :: rest) || hasSub pat rest

/-- Case-insensitive containment:
df["ITEM_NAME"].str.lower().str.contains(identifier.lower(), na=False),
with the pattern read literally (identifiers are plain item names). -/
def containsLower (hay pat : String) : Bool :=
  hasSub pat.toLower.data hay.toLower.data

/-- Line 160: the identifier row filter (case-insensitive name containment). -/
def matchRows (df : List Transaction) (identifier : String) : List Transaction :=
  df.filter (fun t => containsLower t.item_name identifier)

/-- Lines 166-167: optional department filter
(`if department and department != "All Production Areas"`; a Python empty
string is falsy, hence the empty-string case keeps all rows). -/
def deptFilter (rows : List Transaction) (department : Option String) : List Transaction :=
  match department with
  | none => rows
  | some d =>
      if d = "" ∨ d = "All Production Areas" then rows
      else rows.filter (fun t => decide (t.department = d))

/-- The rows calculate_proportion works on after both filter stages. -/
def rowsOf (df : List Transaction) (identifier : String) (department : Option String) :
    List Transaction :=
  deptFilter (matchRows df identifier) department

/-- Total quantity issued to one department within rows. -/
def sumQ (rows : List Transaction) (d : String) : ℚ :=
  ((rows.filter (fun t => decide (t.department = d))).map (fun t => t.quantity)).sum

/-- Line 172: filtered_df.groupby("DEPARTMENT")["QUANTITY"].sum().reset_index().
groupby sorts the distinct keys ascending; each key carries its summed
quantity. -/
def dept_usage (rows : List Transaction) : List (String × ℚ) :=
  (List.insertionSort (fun a b => a ≤ b) ((rows.map (fun t => t.department)).dedup)).map
    (fun d => (d, sumQ rows d))

/-- Line 177: total usage over all department groups. -/
def totalUsage (rows : List Transaction) : ℚ :=
  ((dept_usage rows).map Prod.snd).sum

/-- Line 182: dept_usage with the PROPORTION column added. -/
def rawRows (rows : List Transaction) : List PropRow :=
  (dept_usage rows).map (fun p => ⟨p.1, p.2, p.2 / totalUsage rows * 100⟩)

/-- Line 189: dept_usage.loc[dept_usage["PROPORTION"].idxmax()] — the first
row attaining the maximal proportion. -/
def firstMax : List PropRow → PropRow
  | [] => { department := "", quantity := 0, proportion := 0 }
  | h :: t => t.foldl (fun best r => if best.proportion < r.proportion then r else best) h

/-- Lines 185-189: significance filter with the single-group fallback. -/
def significantRows (rows : List Transaction) (min_proportion : ℚ) : List PropRow :=
  let sig := (rawRows rows).filter (fun r => decide (min_proportion ≤ r.proportion))
  if sig = [] ∧ dept_usage rows ≠ [] then [firstMax (rawRows rows)] else sig

/-- Lines 192-194: renormalisation to 100%, skipped when the retained total is
not positive. -/
def normalizeRows (l : List PropRow) : List PropRow :=
  let tp := (l.map (fun r => r.proportion)).sum
  if 0 < tp then l.map (fun r => { r with proportion := r.proportion / tp * 100 }) else l

/-- Line 197: sort_values("PROPORTION", ascending=False) — descending
proportion.  The sort is modelled as a stable insertion sort; note that the
relative order of rows with equal proportions is a modelling choice here:
pandas' default quicksort guarantees no particular tie order, so only
properties invariant under the tie order are read off this definition. -/
def propDescRel (a b : PropRow) : Prop := b.proportion ≤ a.proportion

instance : DecidableRel propDescRel := fun a b =>
  inferInstanceAs (Decidable (b.proportion ≤ a.proportion))

instance : IsTotal PropRow propDescRel := ⟨fun a b => le_total b.proportion a.proportion⟩

instance : IsTrans PropRow propDescRel := ⟨fun _ _ _ hab hbc => le_trans hbc hab⟩

/-- Lines 151-199: calculate_proportion. -/
def calculate_proportion (df : List Transaction) (identifier : String)
    (department : Option String) (min_proportion : ℚ) : Option (List PropRow) :=
  if df = [] then none
  else if matchRows df identifier = [] then none
  else if rowsOf df identifier department = [] then none
  else if dept_usage (rowsOf df identifier department) = [] then none
  else if totalUsage (rowsOf df identifier department) ≤ 0 then none
  else some (List.insertionSort propDescRel
    (normalizeRows (significantRows (rowsOf df identifier department) min_proportion)))

/-- Round half to even — the rounding performed by pandas Series.round()
(numpy rint). -/
def roundHalfEven (q : ℚ) : ℤ :=
  if q - ⌊q⌋ < 1 / 2 then ⌊q⌋
  else if 1 / 2 < q - ⌊q⌋ then ⌊q⌋ + 1
  else if Even ⌊q⌋ then ⌊q⌋ else ⌊q⌋ + 1

/-- Python int(): truncation toward zero. -/
def truncToInt (q : ℚ) : ℤ := if 0 ≤ q then ⌊q⌋ else -⌊-q⌋

/-- Values of a series paired with their positional index. -/
def idxPairs : ℕ → List ℚ → List (ℕ × ℚ)
  | _, [] => []
  | n, x :: xs => (n, x) :: idxPairs (n + 1) xs

/-- Ordering used by Series.nlargest: value descending, the earlier index
winning ties (keep="first"). -/
def descRel (a b : ℕ × ℚ) : Prop := b.2 < a.2 ∨ (a.2 = b.2 ∧ a.1 ≤ b.1)

/-- Ordering used by Series.nsmallest: value ascending, the earlier index
winning ties (keep="first"). -/
def ascRel (a b : ℕ × ℚ) : Prop := a.2 < b.2 ∨ (a.2 = b.2 ∧ a.1 ≤ b.1)

instance : DecidableRel descRel := fun a b =>
  inferInstanceAs (Decidable (b.2 < a.2 ∨ (a.2 = b.2 ∧ a.1 ≤ b.1)))

instance : DecidableRel ascRel := fun a b =>
  inferInstanceAs (Decidable (a.2 < b.2 ∨ (a.2 = b.2 ∧ a.1 ≤ b.1)))

/-- Indices of the first k entries of the series ordered by r. -/
def selIdx (r : ℕ × ℚ → ℕ × ℚ → Prop) [DecidableRel r] (k : ℕ) (vals : List ℚ) : List ℕ :=
  ((List.insertionSort r (idxPairs 0 vals)).take k).map Prod.fst

/-- Series.nlargest(k).index of the series given by vals. -/
def nlargestIdx (k : ℕ) (vals : List ℚ) : List ℕ := selIdx descRel k vals

/-- Series.nsmallest(k).index of the series given by vals. -/
def nsmallestIdx (k : ℕ) (vals : List ℚ) : List ℕ := selIdx ascRel k vals

/-- proportions.at[idx, "ALLOCATED_QUANTITY"] += δ on a positional list. -/
def addAt : List ℤ → ℕ → ℤ → List ℤ
  | [], _, _ => []
  | x :: xs, 0, δ => (x + δ) :: xs
  | x :: xs, n + 1, δ => x :: addAt xs n δ

/-- Lines 215-235: the allocation arithmetic of allocate_quantity on the list
of ideal (real-valued) allocations — round, compare to the target, then add
one unit to the rows with the largest fractional parts or remove one unit
from the rows with the smallest ones. -/
def allocCore (available_quantity : ℚ) (ideals : List ℚ) : List ℤ :=
  let alloc := ideals.map roundHalfEven
  let difference := truncToInt (available_quantity - (alloc.sum : ℚ))
  if 0 < difference then
    (nlargestIdx difference.toNat
      ((ideals.zip alloc).map (fun p => p.1 - (p.2 : ℚ)))).foldl
        (fun a i => addAt a i 1) alloc
  else if difference < 0 then
    (nsmallestIdx (-difference).toNat
      ((ideals.zip alloc).map (fun p => p.1 - ((p.2 : ℚ) - 1)))).foldl
        (fun a i => addAt a i (-1)) alloc
  else alloc

/-- Lines 205-237: allocate_quantity. -/
def allocate_quantity (df : List Transaction) (identifier : String)
    (available_quantity : ℚ) (department : Option String) : Option (List AllocRow) :=
  match calculate_proportion df identifier department 1 with
  | none => none
  | some proportions =>
      let alloc := allocCore available_quantity
        (proportions.map (fun r => r.proportion / 100 * available_quantity))
      some ((proportions.zip alloc).map
        (fun p => ⟨p.1.department, p.1.quantity, p.1.proportion, p.2⟩))

/-- Modelled from the spec (§4.1 matching policy), for comparison with the
code: a digit-only identifier matches the serial-code field by exact
case-insensitive equality; any other identifier matches the item-name field
by case-insensitive substring containment. -/
def specIdentifierMatch (t : Transaction) (identifier : String) : Bool :=
  if identifier ≠ "" ∧ identifier.data.all Char.isDigit then
    t.item_serial.toLower == identifier.toLower
  else containsLower t.item_name identifier

/-- Fractional remainder of one group's ideal allocation. -/
def lrRem (Q : ℤ) (p : String × ℚ) : ℚ :=
  p.2 / 100 * (Q : ℚ) - ⌊p.2 / 100 * (Q : ℚ)⌋

/-- Remainder ordering of the spec's largest-remainder method: remainder
descending, ties by descending share then by group key. -/
def lrRel (Q : ℤ) (a b : String × ℚ) : Prop :=
  lrRem Q b < lrRem Q a ∨
    (lrRem Q a = lrRem Q b ∧ (b.2 < a.2 ∨ (a.2 = b.2 ∧ a.1 ≤ b.1)))

instance (Q : ℤ) : DecidableRel (lrRel Q) := fun a b => by
  unfold lrRel
  exact inferInstance

/-- Modelled from the spec (§4.2 steps 1-4), for comparison with the code:
the largest-remainder reference allocation — floor of every ideal, then one
extra unit to each of the shortfall-many groups with the largest fractional
remainder, ties broken by descending share then by group key. -/
def specLargestRemainder (dist : List (String × ℚ)) (Q : ℤ) : List (String × ℤ) :=
  let shortfall := Q - (dist.map (fun p => ⌊p.2 / 100 * (Q : ℚ)⌋)).sum
  let winners := ((List.insertionSort (lrRel Q) dist).take shortfall.toNat).map Prod.fst
  dist.map (fun p => (p.1, ⌊p.2 / 100 * (Q : ℚ)⌋ + (if p.1 ∈ winners then 1 else 0)))

/-! ### Facts about the rounding primitives -/

theorem roundHalfEven_eq_floor_or (q : ℚ) :
    roundHalfEven q = ⌊q⌋ ∨ roundHalfEven q = ⌊q⌋ + 1 := by
  unfold roundHalfEven
  split_ifs <;> simp

theorem floor_le_roundHalfEven (q : ℚ) : ⌊q⌋ ≤ roundHalfEven q := by
  rcases roundHalfEven_eq_floor_or q with h | h <;> omega

theorem roundHalfEven_le_floor_add_one (q : ℚ) : roundHalfEven q ≤ ⌊q⌋ + 1 := by
  rcases roundHalfEven_eq_floor_or q with h | h <;> omega

theorem sub_roundHalfEven_le_half (q : ℚ) : q - (roundHalfEven q : ℚ) ≤ 1 / 2 := by
  have hfl : (⌊q⌋ : ℚ) ≤ q := Int.floor_le q
  have hfu : q < (⌊q⌋ : ℚ) + 1 := Int.lt_floor_add_one q
  unfold roundHalfEven
  split_ifs with h1 h2 h3 <;> push_cast <;> linarith

theorem neg_half_le_sub_roundHalfEven (q : ℚ) : -(1 / 2) ≤ q - (roundHalfEven q : ℚ) := by
  have hfl : (⌊q⌋ : ℚ) ≤ q := Int.floor_le q
  have hfu : q < (⌊q⌋ : ℚ) + 1 := Int.lt_floor_add_one q
  unfold roundHalfEven
  split_ifs with h1 h2 h3 <;> push_cast <;> linarith

theorem roundHalfEven_eq_floor_of_lt (q : ℚ) (h : (roundHalfEven q : ℚ) < q) :
    roundHalfEven q = ⌊q⌋ := by
  rcases roundHalfEven_eq_floor_or q with h' | h'
  · exact h'
  · exfalso
    have hfu : q < (⌊q⌋ : ℚ) + 1 := Int.lt_floor_add_one q
    rw [h'] at h
    push_cast at h
    linarith

theorem roundHalfEven_eq_floor_add_one_of_gt (q : ℚ) (h : q < (roundHalfEven q : ℚ)) :
    roundHalfEven q = ⌊q⌋ + 1 := by
  rcases roundHalfEven_eq_floor_or q with h' | h'
  · exfalso
    have hfl : (⌊q⌋ : ℚ) ≤ q := Int.floor_le q
    rw [h'] at h
    linarith
  · exact h'

theorem roundHalfEven_nonneg (q : ℚ) (h : 0 ≤ q) : 0 ≤ roundHalfEven q := by
  have := floor_le_roundHalfEven q
  have h0 : 0 ≤ ⌊q⌋ := Int.floor_nonneg.mpr h
  omega

theorem truncToInt_intCast (m : ℤ) : truncToInt (m : ℚ) = m := by
  unfold truncToInt
  split_ifs with h
  · exact Int.floor_intCast m
  · rw [show -(m : ℚ) = ((-m : ℤ) : ℚ) by push_cast; ring, Int.floor_intCast]
    omega

/-! ### Generic list helpers -/

theorem sum_map_sub {α : Type} (f g : α → ℚ) (l : List α) :
    (l.map (fun x => f x - g x)).sum = (l.map f).sum - (l.map g).sum := by
  induction l with
  | nil => simp
  | cons x xs ih => simp only [List.map_cons, List.sum_cons, ih]; ring

theorem intCast_listSum (l : List ℤ) :
    ((l.sum : ℤ) : ℚ) = (l.map (Int.cast : ℤ → ℚ)).sum := by
  induction l with
  | nil => simp
  | cons x xs ih =>
    rw [List.sum_cons, List.map_cons, List.sum_cons, Int.cast_add, ih]

theorem zip_map_self {β γ : Type} (f : ℚ → β) (h : ℚ → β → γ) (l : List ℚ) :
    ((l.zip (l.map f)).map (fun p => h p.1 p.2)) = l.map (fun x => h x (f x)) := by
  induction l with
  | nil => rfl
  | cons x xs ih => simp only [List.map_cons, List.zip_cons_cons, ih]

theorem sum_le_filter_pos (l : List ℚ) :
    l.sum ≤ (l.filter (fun x => decide (0 < x))).sum := by
  induction l with
  | nil => simp
  | cons x xs ih =>
    simp only [List.filter_cons, List.sum_cons]
    by_cases hx : 0 < x
    · rw [if_pos (by simpa using hx)]
      simp only [List.sum_cons]
      linarith
    · rw [if_neg (by simpa using hx)]
      push_neg at hx
      linarith

/-! ### Facts about idxPairs -/

theorem idxPairs_length (n : ℕ) (l : List ℚ) : (idxPairs n l).length = l.length := by
  induction l generalizing n with
  | nil => rfl
  | cons x xs ih => simp [idxPairs, ih]

theorem mem_idxPairs {p : ℕ × ℚ} :
    ∀ {n : ℕ} {l : List ℚ}, p ∈ idxPairs n l → n ≤ p.1 ∧ l.get? (p.1 - n) = some p.2 := by
  intro n l
  induction l generalizing n with
  | nil => intro h; simp [idxPairs] at h
  | cons x xs ih =>
    intro h
    simp only [idxPairs, List.mem_cons] at h
    rcases h with h | h
    · subst h; simp
    · obtain ⟨h1, h2⟩ := ih h
      refine ⟨by omega, ?_⟩
      have hs : p.1 - n = (p.1 - (n + 1)) + 1 := by omega
      rw [hs]
      simpa using h2

theorem idxPairs_fst_pairwise (n : ℕ) (l : List ℚ) :
    (idxPairs n l).Pairwise (fun a b => a.1 < b.1) := by
  induction l generalizing n with
  | nil => simp [idxPairs]
  | cons x xs ih =>
    simp only [idxPairs, List.pairwise_cons]
    refine ⟨fun b hb => ?_, ih (n + 1)⟩
    have := (mem_idxPairs hb).1
    omega

theorem idxPairs_countP (q : ℚ → Bool) (n : ℕ) (l : List ℚ) :
    (idxPairs n l).countP (fun p => q p.2) = l.countP q := by
  induction l generalizing n with
  | nil => rfl
  | cons x xs ih => simp [idxPairs, List.countP_cons, ih]

/-! ### Facts about addAt and its iteration -/

theorem addAt_length (l : List ℤ) (i : ℕ) (δ : ℤ) : (addAt l i δ).length = l.length := by
  induction l generalizing i with
  | nil => cases i <;> rfl
  | cons x xs ih => cases i <;> simp [addAt, ih]

theorem addAt_get? (l : List ℤ) (i : ℕ) (δ : ℤ) (j : ℕ) :
    (addAt l i δ).get? j =
      if i = j then (l.get? j).map (fun z => z + δ) else l.get? j := by
  induction l generalizing i j with
  | nil => cases i <;> cases j <;> simp [addAt]
  | cons x xs ih =>
    cases i with
    | zero =>
      cases j with
      | zero => simp [addAt]
      | succ j => simp [addAt]
    | succ i =>
      cases j with
      | zero => simp [addAt]
      | succ j =>
        simp only [addAt, List.get?_cons_succ, ih]
        by_cases hij : i = j
        · subst hij; simp
        · rw [if_neg hij, if_neg (by omega)]

theorem addAt_sum (l : List ℤ) (i : ℕ) (δ : ℤ) (h : i < l.length) :
    (addAt l i δ).sum = l.sum + δ := by
  induction l generalizing i with
  | nil => simp at h
  | cons x xs ih =>
    cases i with
    | zero => simp [addAt]; ring
    | succ i =>
      simp only [addAt, List.sum_cons]
      rw [ih i (by simpa using h)]
      ring

theorem foldl_addAt_length (idxs : List ℕ) (l : List ℤ) (δ : ℤ) :
    (idxs.foldl (fun a i => addAt a i δ) l).length = l.length := by
  induction idxs generalizing l with
  | nil => rfl
  | cons i is ih => simp only [List.foldl_cons]; rw [ih, addAt_length]

theorem foldl_addAt_sum (idxs : List ℕ) (l : List ℤ) (δ : ℤ)
    (h : ∀ i ∈ idxs, i < l.length) :
    (idxs.foldl (fun a i => addAt a i δ) l).sum = l.sum + δ * idxs.length := by
  induction idxs generalizing l with
  | nil => simp
  | cons i is ih =>
    simp only [List.foldl_cons]
    rw [ih _ (fun j hj => by
      rw [addAt_length]; exact h j (List.mem_cons_of_mem _ hj))]
    rw [addAt_sum _ _ _ (h i (List.mem_cons_self _ _))]
    simp only [List.length_cons]
    push_cast
    ring

theorem foldl_addAt_get? (idxs : List ℕ) (l : List ℤ) (δ : ℤ) (j : ℕ) :
    (idxs.foldl (fun a i => addAt a i δ) l).get? j =
      (l.get? j).map (fun z => z + δ * idxs.count j) := by
  induction idxs generalizing l with
  | nil =>
    simp only [List.foldl_nil, List.count_nil, Nat.cast_zero, mul_zero]
    cases l.get? j <;> simp
  | cons i is ih =>
    simp only [List.foldl_cons]
    rw [ih, addAt_get?]
    by_cases hij : i = j
    · rw [if_pos hij, hij, List.count_cons_self, Option.map_map]
      congr 1
      funext z
      simp only [Function.comp_apply]
      push_cast
      ring
    · rw [if_neg hij, List.count_cons_of_ne (fun h => hij h.symm)]

/-! ### Ordering instances for the selection relations -/

instance : IsTotal (ℕ × ℚ) descRel := by
  constructor
  intro a b
  unfold descRel
  rcases lt_trichotomy a.2 b.2 with h | h | h
  · exact Or.inr (Or.inl h)
  · rcases le_total a.1 b.1 with h1 | h1
    · exact Or.inl (Or.inr ⟨h, h1⟩)
    · exact Or.inr (Or.inr ⟨h.symm, h1⟩)
  · exact Or.inl (Or.inl h)

instance : IsTrans (ℕ × ℚ) descRel := by
  constructor
  intro a b c hab hbc
  unfold descRel at *
  rcases hab with h1 | ⟨h1, h1'⟩ <;> rcases hbc with h2 | ⟨h2, h2'⟩
  · exact Or.inl (lt_trans h2 h1)
  · exact Or.inl (h2 ▸ h1)
  · exact Or.inl (h1 ▸ h2)
  · exact Or.inr ⟨h1.trans h2, le_trans h1' h2'⟩

instance : IsTotal (ℕ × ℚ) ascRel := by
  constructor
  intro a b
  unfold ascRel
  rcases lt_trichotomy a.2 b.2 with h | h | h
  · exact Or.inl (Or.inl h)
  · rcases le_total a.1 b.1 with h1 | h1
    · exact Or.inl (Or.inr ⟨h, h1⟩)
    · exact Or.inr (Or.inr ⟨h.symm, h1⟩)
  · exact Or.inr (Or.inl h)

instance : IsTrans (ℕ × ℚ) ascRel := by
  constructor
  intro a b c hab hbc
  unfold ascRel at *
  rcases hab with h1 | ⟨h1, h1'⟩ <;> rcases hbc with h2 | ⟨h2, h2'⟩
  · exact Or.inl (lt_trans h1 h2)
  · exact Or.inl (h2 ▸ h1)
  · exact Or.inl (h1 ▸ h2)
  · exact Or.inr ⟨h1.trans h2, le_trans h1' h2'⟩

/-! ### Elements of a sorted prefix satisfy a downward-closed predicate -/

theorem pred_of_mem_take {α : Type} (r : α → α → Prop) (p : α → Bool)
    (hrp : ∀ a b, r a b → p b = true → p a = true) :
    ∀ (l : List α), l.Pairwise r → ∀ (k : ℕ), k ≤ l.countP p →
      ∀ a ∈ l.take k, p a = true := by
  intro l
  induction l with
  | nil => intro _ k _ a ha; simp at ha
  | cons h t ih =>
    intro hpw k hk a ha
    cases k with
    | zero => simp at ha
    | succ k =>
      rw [List.take_succ_cons] at ha
      rcases List.mem_cons.mp ha with rfl | ha'
      · by_contra hph
        have hph' : p a = false := by
          cases hp : p a
          · rfl
          · exact absurd hp hph
        have hall : ∀ b ∈ t, p b = false := by
          intro b hb
          cases hpb : p b
          · rfl
          · exact absurd (hrp a b ((List.pairwise_cons.mp hpw).1 b hb) hpb)
              (by simp [hph'])
        have hc0 : t.countP p = 0 := by
          rw [List.countP_eq_zero]
          intro b hb
          simp [hall b hb]
        rw [List.countP_cons, hc0] at hk
        simp [hph'] at hk
      · refine ih (List.pairwise_cons.mp hpw).2 k ?_ a ha'
        rw [List.countP_cons] at hk
        by_cases hp : p h = true <;> simp [hp] at hk <;> omega

/-! ### Properties of the nlargest / nsmallest index selection -/

theorem selIdx_length (r : ℕ × ℚ → ℕ × ℚ → Prop) [DecidableRel r] (k : ℕ) (vals : List ℚ)
    (h : k ≤ vals.length) : (selIdx r k vals).length = k := by
  unfold selIdx
  rw [List.length_map, List.length_take, (List.perm_insertionSort r _).length_eq,
    idxPairs_length]
  omega

theorem selIdx_nodup (r : ℕ × ℚ → ℕ × ℚ → Prop) [DecidableRel r] (k : ℕ) (vals : List ℚ) :
    (selIdx r k vals).Nodup := by
  unfold selIdx
  have h1 : ((List.insertionSort r (idxPairs 0 vals)).map Prod.fst).Nodup := by
    refine ((List.perm_insertionSort r (idxPairs 0 vals)).map Prod.fst).nodup_iff.mpr ?_
    exact ((idxPairs_fst_pairwise 0 vals).map Prod.fst (fun a b hab => hab)).imp
      (fun h => Nat.ne_of_lt h)
  exact h1.sublist ((List.take_sublist _ _).map Prod.fst)

theorem selIdx_mem (r : ℕ × ℚ → ℕ × ℚ → Prop) [DecidableRel r] (k : ℕ) (vals : List ℚ)
    (j : ℕ) (hj : j ∈ selIdx r k vals) : ∃ v, vals.get? j = some v := by
  unfold selIdx at hj
  obtain ⟨pr, hpr, rfl⟩ := List.mem_map.mp hj
  have hmem : pr ∈ idxPairs 0 vals :=
    (List.perm_insertionSort r _).subset (List.take_subset _ _ hpr)
  have hv := (mem_idxPairs hmem).2
  refine ⟨pr.2, ?_⟩
  simpa using hv

theorem selIdx_pred (r : ℕ × ℚ → ℕ × ℚ → Prop) [DecidableRel r] [IsTotal (ℕ × ℚ) r]
    [IsTrans (ℕ × ℚ) r] (p : ℚ → Bool)
    (hrp : ∀ a b : ℕ × ℚ, r a b → p b.2 = true → p a.2 = true)
    (k : ℕ) (vals : List ℚ) (hk : k ≤ vals.countP p)
    (j : ℕ) (hj : j ∈ selIdx r k vals) :
    ∃ v, vals.get? j = some v ∧ p v = true := by
  unfold selIdx at hj
  obtain ⟨pr, hpr, rfl⟩ := List.mem_map.mp hj
  have hcount : (List.insertionSort r (idxPairs 0 vals)).countP (fun q => p q.2)
      = vals.countP p := by
    rw [(List.perm_insertionSort r (idxPairs 0 vals)).countP_eq, idxPairs_countP]
  have hp : p pr.2 = true := by
    refine pred_of_mem_take r (fun q => p q.2) hrp _ ?_ k (by omega) pr hpr
    exact List.sorted_insertionSort r (idxPairs 0 vals)
  have hmem : pr ∈ idxPairs 0 vals :=
    (List.perm_insertionSort r _).subset (List.take_subset _ _ hpr)
  have hv := (mem_idxPairs hmem).2
  refine ⟨pr.2, ?_, hp⟩
  simpa using hv

/-! ### The fractional series of the allocation step -/

theorem frac_zip_eq (xs : List ℚ) :
    ((xs.zip (xs.map roundHalfEven)).map (fun p => p.1 - (p.2 : ℚ)))
      = xs.map (fun x => x - (roundHalfEven x : ℚ)) := by
  induction xs with
  | nil => rfl
  | cons x l ih => simp only [List.map_cons, List.zip_cons_cons, ih]

theorem frac2_zip_eq (xs : List ℚ) :
    ((xs.zip (xs.map roundHalfEven)).map (fun p => p.1 - ((p.2 : ℚ) - 1)))
      = xs.map (fun x => x - ((roundHalfEven x : ℚ) - 1)) := by
  induction xs with
  | nil => rfl
  | cons x l ih => simp only [List.map_cons, List.zip_cons_cons, ih]

theorem frac_sum (xs : List ℚ) :
    (xs.map (fun x => x - (roundHalfEven x : ℚ))).sum
      = xs.sum - (((xs.map roundHalfEven).sum : ℤ) : ℚ) := by
  induction xs with
  | nil => simp
  | cons x l ih =>
    simp only [List.map_cons, List.sum_cons, ih]
    push_cast
    ring

theorem negfrac_sum (xs : List ℚ) :
    (xs.map (fun x => (roundHalfEven x : ℚ) - x)).sum
      = (((xs.map roundHalfEven).sum : ℤ) : ℚ) - xs.sum := by
  induction xs with
  | nil => simp
  | cons x l ih =>
    simp only [List.map_cons, List.sum_cons, ih]
    push_cast
    ring

theorem count_pos_ge (l : List ℚ) (k : ℕ) (hsum : (k : ℚ) ≤ l.sum)
    (hhalf : ∀ x ∈ l, x ≤ 1 / 2) :
    k ≤ l.countP (fun x => decide (0 < x)) := by
  have h1 : l.sum ≤ (l.filter (fun x => decide (0 < x))).sum := sum_le_filter_pos l
  have h2 : (l.filter (fun x => decide (0 < x))).sum
      ≤ ((l.filter (fun x => decide (0 < x))).length : ℚ) * (1 / 2) := by
    have := List.sum_le_card_nsmul (l.filter (fun x => decide (0 < x))) (1 / 2 : ℚ)
      (fun x hx => hhalf x (List.mem_of_mem_filter hx))
    simpa [nsmul_eq_mul] using this
  have h3 : (l.filter (fun x => decide (0 < x))).length
      = l.countP (fun x => decide (0 < x)) := by
    rw [List.countP_eq_length_filter]
  have h4 : (2 * k : ℚ) ≤ (l.countP (fun x => decide (0 < x)) : ℚ) := by
    rw [h3] at h2
    push_cast
    nlinarith
  have h5 : 2 * k ≤ l.countP (fun x => decide (0 < x)) := by exact_mod_cast h4
  omega

theorem lt_length_of_get?_eq_some {α : Type} {l : List α} {j : ℕ} {a : α}
    (h : l.get? j = some a) : j < l.length := by
  by_contra hc
  push_neg at hc
  rw [List.get?_eq_none.mpr hc] at h
  cases h

/-- The allocation arithmetic of allocate_quantity, for an integral target n
and ideal allocations that sum to n exactly: it keeps the length, reconciles
the sum to n exactly, and moves every entry to the floor or the floor plus
one of its ideal value. -/
theorem allocCore_spec (n : ℤ) (xs : List ℚ) (hsum : xs.sum = (n : ℚ)) :
    (allocCore (n : ℚ) xs).length = xs.length ∧
    (allocCore (n : ℚ) xs).sum = n ∧
    ∀ j x a, xs.get? j = some x → (allocCore (n : ℚ) xs).get? j = some a →
      ⌊x⌋ ≤ a ∧ a ≤ ⌊x⌋ + 1 := by
  have hdiffeq : truncToInt ((n : ℚ) - (((xs.map roundHalfEven).sum : ℤ) : ℚ))
      = n - (xs.map roundHalfEven).sum := by
    rw [show (n : ℚ) - (((xs.map roundHalfEven).sum : ℤ) : ℚ)
        = ((n - (xs.map roundHalfEven).sum : ℤ) : ℚ) by push_cast; ring, truncToInt_intCast]
  have halen : (xs.map roundHalfEven).length = xs.length := List.length_map _ _
  simp only [allocCore]
  rw [hdiffeq, frac_zip_eq, frac2_zip_eq]
  split_ifs with hpos hneg
  · -- difference > 0: units are added at the indices of the largest fractional parts
    have hflen : (xs.map (fun x => x - (roundHalfEven x : ℚ))).length = xs.length :=
      List.length_map _ _
    have hknn : (((n - (xs.map roundHalfEven).sum).toNat : ℤ)) = n - (xs.map roundHalfEven).sum :=
      Int.toNat_of_nonneg (by omega)
    have hfsum : (xs.map (fun x => x - (roundHalfEven x : ℚ))).sum
        = (n : ℚ) - (((xs.map roundHalfEven).sum : ℤ) : ℚ) := by
      rw [frac_sum, hsum]
    have hhalf : ∀ v ∈ xs.map (fun x => x - (roundHalfEven x : ℚ)), v ≤ 1 / 2 := by
      intro v hv
      obtain ⟨x, _, rfl⟩ := List.mem_map.mp hv
      exact sub_roundHalfEven_le_half x
    have hkq : (((n - (xs.map roundHalfEven).sum).toNat : ℕ) : ℚ)
        = (n : ℚ) - (((xs.map roundHalfEven).sum : ℤ) : ℚ) := by
      rw [(Int.cast_natCast ((n - (xs.map roundHalfEven).sum).toNat)).symm, hknn, Int.cast_sub]
    have hcnt : (n - (xs.map roundHalfEven).sum).toNat
        ≤ (xs.map (fun x => x - (roundHalfEven x : ℚ))).countP (fun x => decide (0 < x)) :=
      count_pos_ge _ _ (le_of_eq (hkq.trans hfsum.symm)) hhalf
    have hklen : (n - (xs.map roundHalfEven).sum).toNat
        ≤ (xs.map (fun x => x - (roundHalfEven x : ℚ))).length :=
      le_trans hcnt (List.countP_le_length _)
    have hsellen : (nlargestIdx (n - (xs.map roundHalfEven).sum).toNat
        (xs.map (fun x => x - (roundHalfEven x : ℚ)))).length
        = (n - (xs.map roundHalfEven).sum).toNat :=
      selIdx_length descRel _ _ (by rw [hflen]; omega)
    have hmemlt : ∀ i ∈ nlargestIdx (n - (xs.map roundHalfEven).sum).toNat
        (xs.map (fun x => x - (roundHalfEven x : ℚ))), i < (xs.map roundHalfEven).length := by
      intro i hi
      obtain ⟨v, hv⟩ := selIdx_mem descRel _ _ i hi
      have := lt_length_of_get?_eq_some hv
      rw [hflen] at this
      omega
    refine ⟨?_, ?_, ?_⟩
    · rw [foldl_addAt_length, halen]
    · rw [foldl_addAt_sum _ _ _ hmemlt, hsellen]
      omega
    · intro j x a hx ha
      rw [foldl_addAt_get?, List.get?_map, hx, Option.map_some', Option.map_some'] at ha
      have haeq : a = roundHalfEven x + 1 * ((nlargestIdx (n - (xs.map roundHalfEven).sum).toNat
          (xs.map (fun x => x - (roundHalfEven x : ℚ)))).count j : ℤ) :=
        (Option.some.inj ha).symm
      by_cases hj : j ∈ nlargestIdx (n - (xs.map roundHalfEven).sum).toNat
          (xs.map (fun x => x - (roundHalfEven x : ℚ)))
      · have hcnt1 : (nlargestIdx (n - (xs.map roundHalfEven).sum).toNat
            (xs.map (fun x => x - (roundHalfEven x : ℚ)))).count j = 1 :=
          List.count_eq_one_of_mem (selIdx_nodup descRel _ _) hj
        have hrp : ∀ a b : ℕ × ℚ, descRel a b →
            decide (0 < b.2) = true → decide (0 < a.2) = true := by
          intro a b hab hb
          simp only [decide_eq_true_eq] at *
          rcases hab with h | ⟨h, _⟩
          · linarith
          · rwa [h]
        obtain ⟨v, hvg, hvp⟩ := selIdx_pred descRel (fun v => decide (0 < v)) hrp _ _ hcnt j hj
        rw [List.get?_map, hx, Option.map_some'] at hvg
        have hveq : v = x - (roundHalfEven x : ℚ) := (Option.some.inj hvg).symm
        simp only [decide_eq_true_eq] at hvp
        rw [hveq] at hvp
        have hfl : roundHalfEven x = ⌊x⌋ := roundHalfEven_eq_floor_of_lt x (by linarith)
        rw [haeq, hcnt1, hfl]
        simp only [Nat.cast_one, mul_one]
        omega
      · have hcnt0 : (nlargestIdx (n - (xs.map roundHalfEven).sum).toNat
            (xs.map (fun x => x - (roundHalfEven x : ℚ)))).count j = 0 :=
          List.count_eq_zero.mpr hj
        rw [haeq, hcnt0]
        have h1 := floor_le_roundHalfEven x
        have h2 := roundHalfEven_le_floor_add_one x
        simp only [Nat.cast_zero, mul_zero, add_zero]
        omega
  · -- difference < 0: units are removed at the indices of the smallest fractional parts
    have hflen : (xs.map (fun x => x - ((roundHalfEven x : ℚ) - 1))).length = xs.length :=
      List.length_map _ _
    have hknn : ((-(n - (xs.map roundHalfEven).sum)).toNat : ℤ)
        = (xs.map roundHalfEven).sum - n := by
      rw [Int.toNat_of_nonneg (by omega)]
      ring
    have hnegsum : (xs.map (fun x => (roundHalfEven x : ℚ) - x)).sum
        = (((xs.map roundHalfEven).sum : ℤ) : ℚ) - (n : ℚ) := by
      rw [negfrac_sum, hsum]
    have hhalf : ∀ v ∈ xs.map (fun x => (roundHalfEven x : ℚ) - x), v ≤ 1 / 2 := by
      intro v hv
      obtain ⟨x, _, rfl⟩ := List.mem_map.mp hv
      have := neg_half_le_sub_roundHalfEven x
      linarith
    have hkq : (((-(n - (xs.map roundHalfEven).sum)).toNat : ℕ) : ℚ)
        = (((xs.map roundHalfEven).sum : ℤ) : ℚ) - (n : ℚ) := by
      rw [(Int.cast_natCast ((-(n - (xs.map roundHalfEven).sum)).toNat)).symm, hknn,
        Int.cast_sub]
    have hcntneg : (-(n - (xs.map roundHalfEven).sum)).toNat
        ≤ (xs.map (fun x => (roundHalfEven x : ℚ) - x)).countP (fun x => decide (0 < x)) :=
      count_pos_ge _ _ (le_of_eq (hkq.trans hnegsum.symm)) hhalf
    have hfuneq : (fun x : ℚ => decide (0 < (roundHalfEven x : ℚ) - x))
        = (fun x : ℚ => decide (x - ((roundHalfEven x : ℚ) - 1) < 1)) := by
      funext x
      rw [decide_eq_decide]
      constructor <;> intro h <;> linarith
    have hcnt : (-(n - (xs.map roundHalfEven).sum)).toNat
        ≤ (xs.map (fun x => x - ((roundHalfEven x : ℚ) - 1))).countP
            (fun v => decide (v < 1)) := by
      rw [List.countP_map] at hcntneg ⊢
      have heq : ((fun v => decide (v < 1)) ∘ fun x => x - ((roundHalfEven x : ℚ) - 1))
          = ((fun x => decide (0 < x)) ∘ fun x : ℚ => (roundHalfEven x : ℚ) - x) := by
        funext x
        simp only [Function.comp_apply]
        rw [decide_eq_decide]
        constructor <;> intro h <;> linarith
      rw [heq]
      exact hcntneg
    have hklen : (-(n - (xs.map roundHalfEven).sum)).toNat
        ≤ (xs.map (fun x => x - ((roundHalfEven x : ℚ) - 1))).length :=
      le_trans hcnt (List.countP_le_length _)
    have hsellen : (nsmallestIdx (-(n - (xs.map roundHalfEven).sum)).toNat
        (xs.map (fun x => x - ((roundHalfEven x : ℚ) - 1)))).length
        = (-(n - (xs.map roundHalfEven).sum)).toNat :=
      selIdx_length ascRel _ _ (by rw [hflen]; omega)
    have hmemlt : ∀ i ∈ nsmallestIdx (-(n - (xs.map roundHalfEven).sum)).toNat
        (xs.map (fun x => x - ((roundHalfEven x : ℚ) - 1))),
        i < (xs.map roundHalfEven).length := by
      intro i hi
      obtain ⟨v, hv⟩ := selIdx_mem ascRel _ _ i hi
      have := lt_length_of_get?_eq_some hv
      rw [hflen] at this
      omega
    refine ⟨?_, ?_, ?_⟩
    · rw [foldl_addAt_length, halen]
    · rw [foldl_addAt_sum _ _ _ hmemlt, hsellen]
      omega
    · intro j x a hx ha
      rw [foldl_addAt_get?, List.get?_map, hx, Option.map_some', Option.map_some'] at ha
      have haeq : a = roundHalfEven x + (-1) * ((nsmallestIdx
          (-(n - (xs.map roundHalfEven).sum)).toNat
          (xs.map (fun x => x - ((roundHalfEven x : ℚ) - 1)))).count j : ℤ) :=
        (Option.some.inj ha).symm
      by_cases hj : j ∈ nsmallestIdx (-(n - (xs.map roundHalfEven).sum)).toNat
          (xs.map (fun x => x - ((roundHalfEven x : ℚ) - 1)))
      · have hcnt1 : (nsmallestIdx (-(n - (xs.map roundHalfEven).sum)).toNat
            (xs.map (fun x => x - ((roundHalfEven x : ℚ) - 1)))).count j = 1 :=
          List.count_eq_one_of_mem (selIdx_nodup ascRel _ _) hj
        have hrp : ∀ a b : ℕ × ℚ, ascRel a b →
            decide (b.2 < 1) = true → decide (a.2 < 1) = true := by
          intro a b hab hb
          simp only [decide_eq_true_eq] at *
          rcases hab with h | ⟨h, _⟩
          · linarith
          · rwa [h]
        obtain ⟨v, hvg, hvp⟩ := selIdx_pred ascRel (fun v => decide (v < 1)) hrp _ _ hcnt j hj
        rw [List.get?_map, hx, Option.map_some'] at hvg
        have hveq : v = x - ((roundHalfEven x : ℚ) - 1) := (Option.some.inj hvg).symm
        simp only [decide_eq_true_eq] at hvp
        rw [hveq] at hvp
        have hfl : roundHalfEven x = ⌊x⌋ + 1 :=
          roundHalfEven_eq_floor_add_one_of_gt x (by linarith)
        rw [haeq, hcnt1, hfl]
        simp only [Nat.cast_one, mul_one]
        omega
      · have hcnt0 : (nsmallestIdx (-(n - (xs.map roundHalfEven).sum)).toNat
            (xs.map (fun x => x - ((roundHalfEven x : ℚ) - 1)))).count j = 0 :=
          List.count_eq_zero.mpr hj
        rw [haeq, hcnt0]
        have h1 := floor_le_roundHalfEven x
        have h2 := roundHalfEven_le_floor_add_one x
        simp only [Nat.cast_zero, mul_zero, add_zero]
        omega
  · -- difference = 0: the rounded allocations already reconcile
    refine ⟨halen, by omega, ?_⟩
    intro j x a hx ha
    rw [List.get?_map, hx, Option.map_some'] at ha
    have haeq : a = roundHalfEven x := (Option.some.inj ha).symm
    have h1 := floor_le_roundHalfEven x
    have h2 := roundHalfEven_le_floor_add_one x
    omega

/-! ### Structure of the rows flowing through calculate_proportion -/

theorem mem_of_mem_matchRows {df : List Transaction} {identifier : String} {t : Transaction}
    (h : t ∈ matchRows df identifier) : t ∈ df :=
  List.mem_of_mem_filter h

theorem mem_of_mem_deptFilter {rows : List Transaction} {department : Option String}
    {t : Transaction} (h : t ∈ deptFilter rows department) : t ∈ rows := by
  cases department with
  | none => exact h
  | some d =>
    simp only [deptFilter] at h
    split_ifs at h
    · exact h
    · exact List.mem_of_mem_filter h

theorem mem_of_mem_rowsOf {df : List Transaction} {identifier : String}
    {department : Option String} {t : Transaction} (h : t ∈ rowsOf df identifier department) :
    t ∈ df :=
  mem_of_mem_matchRows (mem_of_mem_deptFilter h)

theorem deptFilter_nil (department : Option String) : deptFilter [] department = [] := by
  cases department with
  | none => rfl
  | some d =>
    simp only [deptFilter]
    split_ifs <;> rfl

theorem rowsOf_eq_nil_of_match {df : List Transaction} {identifier : String}
    (department : Option String) (h : matchRows df identifier = []) :
    rowsOf df identifier department = [] := by
  unfold rowsOf
  rw [h, deptFilter_nil]

theorem mem_dept_usage {rows : List Transaction} {p : String × ℚ} (h : p ∈ dept_usage rows) :
    p.2 = sumQ rows p.1 ∧ ∃ t ∈ rows, t.department = p.1 := by
  unfold dept_usage at h
  obtain ⟨d, hd, rfl⟩ := List.mem_map.mp h
  refine ⟨rfl, ?_⟩
  have hd' : d ∈ (rows.map (fun t => t.department)).dedup :=
    (List.perm_insertionSort _ _).subset hd
  have hd2 : d ∈ rows.map (fun t => t.department) := List.mem_dedup.mp hd'
  obtain ⟨t, ht, heq⟩ := List.mem_map.mp hd2
  exact ⟨t, ht, heq⟩

theorem sumQ_pos {rows : List Transaction} {d : String}
    (hpos : ∀ t ∈ rows, 0 < t.quantity) (h : ∃ t ∈ rows, t.department = d) :
    0 < sumQ rows d := by
  obtain ⟨t, ht, htd⟩ := h
  unfold sumQ
  apply List.sum_pos
  · intro q hq
    obtain ⟨u, hu, rfl⟩ := List.mem_map.mp hq
    exact hpos u (List.mem_of_mem_filter hu)
  · have htf : t ∈ rows.filter (fun t => decide (t.department = d)) := by
      rw [List.mem_filter]
      exact ⟨ht, by simpa using htd⟩
    intro hnil
    rw [List.map_eq_nil] at hnil
    rw [hnil] at htf
    cases htf

theorem dept_usage_ne_nil {rows : List Transaction} (h : rows ≠ []) : dept_usage rows ≠ [] := by
  cases rows with
  | nil => exact absurd rfl h
  | cons t ts =>
    intro hcon
    unfold dept_usage at hcon
    rw [List.map_eq_nil] at hcon
    have hmem : t.department ∈ ((t :: ts).map (fun t => t.department)).dedup :=
      List.mem_dedup.mpr (by simp)
    have hmem2 : t.department ∈ List.insertionSort (fun a b => a ≤ b)
        (((t :: ts).map (fun t => t.department)).dedup) :=
      ((List.perm_insertionSort _ _).mem_iff).mpr hmem
    rw [hcon] at hmem2
    cases hmem2

theorem totalUsage_pos {rows : List Transaction} (hpos : ∀ t ∈ rows, 0 < t.quantity)
    (h : rows ≠ []) : 0 < totalUsage rows := by
  unfold totalUsage
  apply List.sum_pos
  · intro q hq
    obtain ⟨p, hp, rfl⟩ := List.mem_map.mp hq
    obtain ⟨heq, hex⟩ := mem_dept_usage hp
    rw [heq]
    exact sumQ_pos hpos hex
  · intro hnil
    rw [List.map_eq_nil] at hnil
    exact dept_usage_ne_nil h hnil

theorem rawRows_ne_nil {rows : List Transaction} (h : rows ≠ []) : rawRows rows ≠ [] := by
  intro hcon
  unfold rawRows at hcon
  rw [List.map_eq_nil] at hcon
  exact dept_usage_ne_nil h hcon

theorem rawRows_proportion_pos {rows : List Transaction}
    (hpos : ∀ t ∈ rows, 0 < t.quantity) (hne : rows ≠ []) :
    ∀ r ∈ rawRows rows, 0 < r.proportion := by
  intro r hr
  unfold rawRows at hr
  obtain ⟨p, hp, rfl⟩ := List.mem_map.mp hr
  obtain ⟨heq, hex⟩ := mem_dept_usage hp
  have h1 : 0 < p.2 := heq ▸ sumQ_pos hpos hex
  have h2 : 0 < totalUsage rows := totalUsage_pos hpos hne
  exact mul_pos (div_pos h1 h2) (by norm_num)

/-! ### The running-maximum fold behind idxmax -/

theorem foldl_best_mem (t : List PropRow) (h : PropRow) :
    t.foldl (fun best r => if best.proportion < r.proportion then r else best) h = h ∨
      t.foldl (fun best r => if best.proportion < r.proportion then r else best) h ∈ t := by
  induction t generalizing h with
  | nil => exact Or.inl rfl
  | cons r ts ih =>
    simp only [List.foldl_cons]
    rcases ih (if h.proportion < r.proportion then r else h) with heq | hmem
    · rw [heq]
      split_ifs with hc
      · exact Or.inr (List.mem_cons_self _ _)
      · exact Or.inl rfl
    · exact Or.inr (List.mem_cons_of_mem _ hmem)

theorem foldl_best_ge (t : List PropRow) (h : PropRow) :
    h.proportion ≤
        (t.foldl (fun best r => if best.proportion < r.proportion then r else best) h).proportion
      ∧ ∀ r ∈ t, r.proportion ≤
        (t.foldl (fun best r => if best.proportion < r.proportion then r else best) h).proportion := by
  induction t generalizing h with
  | nil => exact ⟨le_refl _, by simp⟩
  | cons r ts ih =>
    simp only [List.foldl_cons]
    obtain ⟨ih1, ih2⟩ := ih (if h.proportion < r.proportion then r else h)
    have hstep_h : h.proportion ≤ (if h.proportion < r.proportion then r else h).proportion := by
      split_ifs with hc
      · linarith
      · exact le_refl _
    have hstep_r : r.proportion ≤ (if h.proportion < r.proportion then r else h).proportion := by
      split_ifs with hc
      · exact le_refl _
      · exact not_lt.mp hc
    refine ⟨le_trans hstep_h ih1, ?_⟩
    intro x hx
    rcases List.mem_cons.mp hx with rfl | hx'
    · exact le_trans hstep_r ih1
    · exact ih2 x hx'

theorem firstMax_mem (l : List PropRow) (h : l ≠ []) : firstMax l ∈ l := by
  cases l with
  | nil => exact absurd rfl h
  | cons r t =>
    have hF : firstMax (r :: t)
        = t.foldl (fun best x => if best.proportion < x.proportion then x else best) r := rfl
    rw [hF]
    rcases foldl_best_mem t r with heq | hmem
    · rw [heq]; exact List.mem_cons_self _ _
    · exact List.mem_cons_of_mem _ hmem

theorem firstMax_le (l : List PropRow) : ∀ r ∈ l, r.proportion ≤ (firstMax l).proportion := by
  intro r hr
  cases l with
  | nil => cases hr
  | cons h t =>
    have hF : firstMax (h :: t)
        = t.foldl (fun best x => if best.proportion < x.proportion then x else best) h := rfl
    rw [hF]
    rcases List.mem_cons.mp hr with rfl | hr'
    · exact (foldl_best_ge t r).1
    · exact (foldl_best_ge t h).2 r hr'

/-! ### The significance filter and renormalisation -/

theorem mem_significantRows {rows : List Transaction} {min_proportion : ℚ} {r : PropRow}
    (h : r ∈ significantRows rows min_proportion) :
    r ∈ rawRows rows ∨ r = firstMax (rawRows rows) := by
  simp only [significantRows] at h
  split_ifs at h with hc
  · exact Or.inr (List.mem_singleton.mp h)
  · exact Or.inl (List.mem_of_mem_filter h)

theorem significantRows_ne_nil {rows : List Transaction} {min_proportion : ℚ}
    (husage : dept_usage rows ≠ []) : significantRows rows min_proportion ≠ [] := by
  simp only [significantRows]
  split_ifs with hc
  · simp
  · rw [not_and_or] at hc
    rcases hc with hc | hc
    · exact hc
    · exact absurd husage (by simpa using hc)

theorem significantRows_proportion_pos {rows : List Transaction} {min_proportion : ℚ}
    (hpos : ∀ t ∈ rows, 0 < t.quantity) (hne : rows ≠ []) :
    ∀ r ∈ significantRows rows min_proportion, 0 < r.proportion := by
  intro r hr
  rcases mem_significantRows hr with h | h
  · exact rawRows_proportion_pos hpos hne r h
  · rw [h]
    exact rawRows_proportion_pos hpos hne _ (firstMax_mem _ (rawRows_ne_nil hne))

theorem sum_map_div_mul (l : List PropRow) (c q : ℚ) :
    (l.map (fun r => r.proportion / c * q)).sum
      = (l.map (fun r => r.proportion)).sum / c * q := by
  induction l with
  | nil => simp
  | cons r t ih => simp only [List.map_cons, List.sum_cons, ih]; ring

theorem normalizeRows_spec (l : List PropRow) (hpos : ∀ r ∈ l, 0 < r.proportion)
    (hne : l ≠ []) :
    ((normalizeRows l).map (fun r => r.proportion)).sum = 100 ∧
      (∀ r ∈ normalizeRows l, 0 < r.proportion) ∧
      normalizeRows l ≠ [] := by
  have htp : 0 < (l.map (fun r => r.proportion)).sum := by
    apply List.sum_pos
    · intro q hq
      obtain ⟨r, hr, rfl⟩ := List.mem_map.mp hq
      exact hpos r hr
    · intro hnil
      rw [List.map_eq_nil] at hnil
      exact hne hnil
  simp only [normalizeRows]
  rw [if_pos htp]
  refine ⟨?_, ?_, ?_⟩
  · rw [List.map_map]
    have hcomp : ((fun r : PropRow => r.proportion) ∘ fun r : PropRow =>
        { r with proportion := r.proportion / (l.map (fun r => r.proportion)).sum * 100 })
        = fun r : PropRow => r.proportion / (l.map (fun r => r.proportion)).sum * 100 := rfl
    rw [hcomp, sum_map_div_mul, div_self (ne_of_gt htp)]
    ring
  · intro r hr
    obtain ⟨r', hr', rfl⟩ := List.mem_map.mp hr
    exact mul_pos (div_pos (hpos r' hr') htp) (by norm_num)
  · intro hcon
    rw [List.map_eq_nil] at hcon
    exact hne hcon

/-! ### Invariants of calculate_proportion -/

theorem calc_some_spec (df : List Transaction) (identifier : String)
    (department : Option String) (min_proportion : ℚ) (props : List PropRow)
    (hpos : ∀ t ∈ df, 0 < t.quantity)
    (h : calculate_proportion df identifier department min_proportion = some props) :
    (∀ r ∈ props, 0 < r.proportion) ∧
      (props.map (fun r => r.proportion)).sum = 100 ∧ props ≠ [] := by
  simp only [calculate_proportion] at h
  split_ifs at h with h1 h2 h3 h4 h5
  obtain rfl : props = _ := (Option.some.inj h).symm
  have hq : ∀ t ∈ rowsOf df identifier department, 0 < t.quantity :=
    fun t ht => hpos t (mem_of_mem_rowsOf ht)
  have hsig_pos : ∀ r ∈ significantRows (rowsOf df identifier department) min_proportion,
      0 < r.proportion := significantRows_proportion_pos hq h3
  have hsig_ne : significantRows (rowsOf df identifier department) min_proportion ≠ [] :=
    significantRows_ne_nil h4
  obtain ⟨hn_sum, hn_pos, hn_ne⟩ := normalizeRows_spec _ hsig_pos hsig_ne
  have hperm := List.perm_insertionSort propDescRel
    (normalizeRows (significantRows (rowsOf df identifier department) min_proportion))
  refine ⟨?_, ?_, ?_⟩
  · intro r hr
    exact hn_pos r (hperm.subset hr)
  · rw [(hperm.map (fun r => r.proportion)).sum_eq]
    exact hn_sum
  · intro hcon
    rw [hcon] at hperm
    exact hn_ne hperm.symm.eq_nil

theorem calc_none_of_rows_nil (df : List Transaction) (identifier : String)
    (department : Option String) (min_proportion : ℚ)
    (h : rowsOf df identifier department = []) :
    calculate_proportion df identifier department min_proportion = none := by
  simp only [calculate_proportion]
  split_ifs <;> rfl

theorem calc_none_iff (df : List Transaction) (identifier : String)
    (department : Option String) (min_proportion : ℚ)
    (hpos : ∀ t ∈ df, 0 < t.quantity) :
    calculate_proportion df identifier department min_proportion = none ↔
      rowsOf df identifier department = [] := by
  constructor
  · intro h
    simp only [calculate_proportion] at h
    split_ifs at h with h1 h2 h3 h4 h5
    · unfold rowsOf
      rw [h1]
      show deptFilter (List.filter _ []) department = []
      rw [List.filter_nil, deptFilter_nil]
    · exact rowsOf_eq_nil_of_match department h2
    · exact h3
    · by_contra hne
      exact dept_usage_ne_nil hne h4
    · by_contra hne
      have hq : ∀ t ∈ rowsOf df identifier department, 0 < t.quantity :=
        fun t ht => hpos t (mem_of_mem_rowsOf ht)
      exact absurd (totalUsage_pos hq hne) (not_lt.mpr h5)
  · exact calc_none_of_rows_nil df identifier department min_proportion

/-! ### Dissecting allocate_quantity -/

theorem allocate_quantity_some_elim (df : List Transaction) (identifier : String)
    (Q : ℚ) (department : Option String) (res : List AllocRow)
    (h : allocate_quantity df identifier Q department = some res) :
    ∃ props, calculate_proportion df identifier department 1 = some props ∧
      res = (props.zip (allocCore Q (props.map (fun r => r.proportion / 100 * Q)))).map
        (fun p => ⟨p.1.department, p.1.quantity, p.1.proportion, p.2⟩) := by
  unfold allocate_quantity at h
  cases hc : calculate_proportion df identifier department 1 with
  | none =>
    rw [hc] at h
    exact Option.noConfusion h
  | some props =>
    rw [hc] at h
    exact ⟨props, rfl, (Option.some.inj h).symm⟩

theorem zip_alloc_map_allocated (props : List PropRow) (alloc : List ℤ)
    (hlen : props.length = alloc.length) :
    (((props.zip alloc).map
      (fun p => (⟨p.1.department, p.1.quantity, p.1.proportion, p.2⟩ : AllocRow))).map
        (fun r => r.allocated_quantity)) = alloc := by
  induction props generalizing alloc with
  | nil =>
    cases alloc with
    | nil => rfl
    | cons a l => simp at hlen
  | cons p ps ih =>
    cases alloc with
    | nil => simp at hlen
    | cons a l =>
      simp only [List.zip_cons_cons, List.map_cons]
      rw [ih l (by simpa using hlen)]

theorem zip_alloc_get? (props : List PropRow) (alloc : List ℤ) (j : ℕ) (r : AllocRow)
    (h : ((props.zip alloc).map
      (fun p => (⟨p.1.department, p.1.quantity, p.1.proportion, p.2⟩ : AllocRow))).get? j
        = some r) :
    ∃ pr a, props.get? j = some pr ∧ alloc.get? j = some a ∧
      r = ⟨pr.department, pr.quantity, pr.proportion, a⟩ := by
  induction props generalizing alloc j with
  | nil => simp [List.zip] at h
  | cons p ps ih =>
    cases alloc with
    | nil => simp [List.zip] at h
    | cons a l =>
      cases j with
      | zero =>
        simp only [List.zip_cons_cons, List.map_cons, List.get?_cons_zero] at h
        exact ⟨p, a, rfl, rfl, (Option.some.inj h).symm⟩
      | succ j =>
        simp only [List.zip_cons_cons, List.map_cons, List.get?_cons_succ] at h
        exact ih l j h

/-- Combined exact-sum and floor/ceiling bounds for the rows returned by
allocate_quantity at an integral available quantity, assuming the data-model
invariant that all transaction quantities are positive. -/
theorem allocate_quantity_spec (df : List Transaction) (identifier : String)
    (department : Option String) (n : ℤ) (res : List AllocRow)
    (hpos : ∀ t ∈ df, 0 < t.quantity)
    (h : allocate_quantity df identifier (n : ℚ) department = some res) :
    (res.map (fun r => r.allocated_quantity)).sum = n ∧
      ∀ r ∈ res, 0 < r.proportion ∧
        ⌊r.proportion / 100 * (n : ℚ)⌋ ≤ r.allocated_quantity ∧
        r.allocated_quantity ≤ ⌊r.proportion / 100 * (n : ℚ)⌋ + 1 := by
  obtain ⟨props, hcalc, hres⟩ := allocate_quantity_some_elim df identifier _ department res h
  obtain ⟨hpp, hsum100, hne⟩ := calc_some_spec df identifier department 1 props hpos hcalc
  have hisum : (props.map (fun r => r.proportion / 100 * (n : ℚ))).sum = (n : ℚ) := by
    rw [sum_map_div_mul, hsum100]
    norm_num
  obtain ⟨hlen, hsum, hbounds⟩ := allocCore_spec n _ hisum
  constructor
  · rw [hres, zip_alloc_map_allocated _ _ (by rw [hlen, List.length_map])]
    exact hsum
  · intro r hr
    rw [hres] at hr
    obtain ⟨j, hj⟩ := List.mem_iff_get?.mp hr
    obtain ⟨pr, a, hpr, ha, rfl⟩ := zip_alloc_get? _ _ _ _ hj
    have hx : (props.map (fun r => r.proportion / 100 * (n : ℚ))).get? j
        = some (pr.proportion / 100 * (n : ℚ)) := by
      rw [List.get?_map, hpr]
      rfl
    have hb := hbounds j _ a hx ha
    exact ⟨hpp pr (List.get?_mem hpr), by simpa using hb.1, by simpa using hb.2⟩

/-! ### Group counts and further structural lemmas -/

theorem norm_sort_length (l : List PropRow) :
    (List.insertionSort propDescRel (normalizeRows l)).length = l.length := by
  rw [(List.perm_insertionSort propDescRel _).length_eq]
  simp only [normalizeRows]
  split_ifs <;> simp

theorem significantRows_length_mono (rows : List Transaction) (t1 t2 : ℚ) (h12 : t1 ≤ t2)
    (husage : dept_usage rows ≠ []) :
    (significantRows rows t2).length ≤ (significantRows rows t1).length := by
  simp only [significantRows]
  have hmono : ((rawRows rows).filter (fun r => decide (t2 ≤ r.proportion))).length
      ≤ ((rawRows rows).filter (fun r => decide (t1 ≤ r.proportion))).length := by
    rw [← List.countP_eq_length_filter, ← List.countP_eq_length_filter]
    refine List.countP_mono_left ?_
    intro r _ hr
    simp only [decide_eq_true_eq] at *
    linarith
  by_cases h2 : (rawRows rows).filter (fun r => decide (t2 ≤ r.proportion)) = []
  · rw [if_pos ⟨h2, husage⟩]
    by_cases h1 : (rawRows rows).filter (fun r => decide (t1 ≤ r.proportion)) = []
    · rw [if_pos ⟨h1, husage⟩]
    · rw [if_neg (fun hc => h1 hc.1)]
      simpa using List.length_pos.mpr h1
  · rw [if_neg (fun hc => h2 hc.1)]
    by_cases h1 : (rawRows rows).filter (fun r => decide (t1 ≤ r.proportion)) = []
    · exfalso
      rw [h1] at hmono
      simp only [List.length_nil, Nat.le_zero, List.length_eq_zero] at hmono
      exact h2 hmono
    · rw [if_neg (fun hc => h1 hc.1)]
      exact hmono

theorem calc_some_ne_nil (df : List Transaction) (identifier : String)
    (department : Option String) (min_proportion : ℚ) (props : List PropRow)
    (h : calculate_proportion df identifier department min_proportion = some props) :
    props ≠ [] := by
  simp only [calculate_proportion] at h
  split_ifs at h with h1 h2 h3 h4 h5
  obtain rfl : props = _ := (Option.some.inj h).symm
  intro hcon
  have hperm := List.perm_insertionSort propDescRel
    (normalizeRows (significantRows (rowsOf df identifier department) min_proportion))
  rw [hcon] at hperm
  have hnil := hperm.symm.eq_nil
  have hsignil : significantRows (rowsOf df identifier department) min_proportion = [] := by
    simp only [normalizeRows] at hnil
    split_ifs at hnil
    · rwa [List.map_eq_nil] at hnil
    · exact hnil
  exact significantRows_ne_nil h4 hsignil

/-! ### Invariance of calculate_proportion under the serial-code column -/

theorem filter_map_serial (p : Transaction → Bool)
    (hp : ∀ (t : Transaction) (s : String), p { t with item_serial := s } = p t)
    (rows : List Transaction) (f : Transaction → String) :
    (rows.map (fun t => { t with item_serial := f t })).filter p
      = (rows.filter p).map (fun t => { t with item_serial := f t }) := by
  induction rows with
  | nil => rfl
  | cons t ts ih =>
    simp only [List.map_cons, List.filter_cons, hp]
    by_cases hc : p t = true
    · rw [if_pos hc, if_pos hc, List.map_cons, ih]
    · rw [if_neg hc, if_neg hc, ih]

theorem sumQ_map_serial (rows : List Transaction) (f : Transaction → String) (d : String) :
    sumQ (rows.map (fun t => { t with item_serial := f t })) d = sumQ rows d := by
  unfold sumQ
  rw [filter_map_serial (fun t => decide (t.department = d)) (fun t s => rfl) rows f,
    List.map_map]
  rfl

theorem dept_usage_map_serial (rows : List Transaction) (f : Transaction → String) :
    dept_usage (rows.map (fun t => { t with item_serial := f t })) = dept_usage rows := by
  unfold dept_usage
  have hkeys : (rows.map (fun t => { t with item_serial := f t })).map
      (fun t => t.department) = rows.map (fun t => t.department) := by
    rw [List.map_map]
    rfl
  rw [hkeys]
  have hfun : (fun d => (d, sumQ (rows.map (fun t => { t with item_serial := f t })) d))
      = fun d => (d, sumQ rows d) := by
    funext d
    rw [sumQ_map_serial]
  rw [hfun]

/-! ### Concrete example data -/

def exItemMilk : String := "milk"

def exItemCheese : String := "cheese"

def exItemMissing : String := "butter"

def exIdDigits : String := "123"

def exDeptA : String := "A"

def exDeptB : String := "B"

def tMilkA : Transaction :=
  { item_name := "milk", item_serial := "1", department := "A", quantity := 60 }

def tMilkB : Transaction :=
  { item_name := "milk", item_serial := "1", department := "B", quantity := 30 }

def tMilkC : Transaction :=
  { item_name := "milk", item_serial := "1", department := "C", quantity := 10 }

def exDf3 : List Transaction := [tMilkA, tMilkB, tMilkC]

def tCheeseA : Transaction :=
  { item_name := "cheese", item_serial := "1", department := "A", quantity := 70 }

def tCheeseB : Transaction :=
  { item_name := "cheese", item_serial := "1", department := "B", quantity := 30 }

def exDf2 : List Transaction := [tCheeseA, tCheeseB]

def tSerialRow : Transaction :=
  { item_name := "cheese 123", item_serial := "999", department := "A", quantity := 5 }

def exDfSerial : List Transaction := [tSerialRow]

def exRes7 : List AllocRow :=
  [{ department := "A", quantity := 60, proportion := 60, allocated_quantity := 4 },
   { department := "B", quantity := 30, proportion := 30, allocated_quantity := 2 },
   { department := "C", quantity := 10, proportion := 10, allocated_quantity := 1 }]

def exRes5 : List AllocRow :=
  [{ department := "A", quantity := 70, proportion := 70, allocated_quantity := 3 },
   { department := "B", quantity := 30, proportion := 30, allocated_quantity := 2 }]

def exRes0 : List AllocRow :=
  [{ department := "A", quantity := 70, proportion := 70, allocated_quantity := 0 },
   { department := "B", quantity := 30, proportion := 30, allocated_quantity := 0 }]

/-! ### The claims -/

/-- C1: for every transaction table satisfying the data-model invariant (all
quantities positive), every identifier and department filter, and every
available quantity equal to a non-negative integer n, any allocation result
returned by allocate_quantity has integer allocated quantities whose sum
equals n exactly. -/
theorem claim_C1_allocation_sum (df : List Transaction) (identifier : String)
    (department : Option String) (Q : ℚ) (n : ℤ) (res : List AllocRow)
    (hpos : ∀ t ∈ df, 0 < t.quantity) (hQ : Q = (n : ℚ)) (hn : 0 ≤ n)
    (h : allocate_quantity df identifier Q department = some res) :
    (res.map (fun r => r.allocated_quantity)).sum = n := by
  subst hQ
  exact (allocate_quantity_spec df identifier department n res hpos h).1

/-- Witness for C1 at the spec scenario: usage {A:60, B:30, C:10} and
available quantity 7 give allocations {A:4, B:2, C:1}, which sum to 7. -/
theorem claim_C1_witness :
    allocate_quantity exDf3 exItemMilk 7 none = some exRes7 ∧
      (exRes7.map (fun r => r.allocated_quantity)).sum = 7 :=
  ⟨by with_unfolding_all decide,
    claim_C1_allocation_sum exDf3 exItemMilk none 7 7 exRes7
      (by with_unfolding_all decide) (by norm_num) (by norm_num)
      (by with_unfolding_all decide)⟩

/-- C3: with positive transaction quantities, every non-empty distribution
returned by calculate_proportion has shares summing to exactly 100 (hence
well within the 1e-6 tolerance), and the result is the no-data signal exactly
when no transaction survives the identifier and department filters. -/
theorem claim_C3_share_sum (df : List Transaction) (identifier : String)
    (department : Option String) (min_proportion : ℚ)
    (hpos : ∀ t ∈ df, 0 < t.quantity) :
    (∀ props, calculate_proportion df identifier department min_proportion = some props →
      (props.map (fun r => r.proportion)).sum = 100) ∧
      (calculate_proportion df identifier department min_proportion = none ↔
        rowsOf df identifier department = []) := by
  constructor
  · intro props h
    exact (calc_some_spec df identifier department min_proportion props hpos h).2.1
  · exact calc_none_iff df identifier department min_proportion hpos

/-- Witness for C3 at the table {A:60, B:30, C:10}. -/
theorem claim_C3_witness :
    (∀ t ∈ exDf3, 0 < t.quantity) ∧
      ((∀ props, calculate_proportion exDf3 exItemMilk none 1 = some props →
        (props.map (fun r => r.proportion)).sum = 100) ∧
        (calculate_proportion exDf3 exItemMilk none 1 = none ↔
          rowsOf exDf3 exItemMilk none = [])) :=
  ⟨by with_unfolding_all decide,
    claim_C3_share_sum exDf3 exItemMilk none 1 (by with_unfolding_all decide)⟩

/-- C7: if the identifier and department filters leave no matching row,
calculate_proportion returns the explicit no-data signal (for every
threshold), and allocate_quantity propagates it, returning the no-data
signal rather than an allocation. -/
theorem claim_C7_no_data_propagation (df : List Transaction) (identifier : String)
    (department : Option String) (min_proportion Q : ℚ)
    (h : rowsOf df identifier department = []) :
    calculate_proportion df identifier department min_proportion = none ∧
      allocate_quantity df identifier Q department = none := by
  refine ⟨calc_none_of_rows_nil df identifier department min_proportion h, ?_⟩
  unfold allocate_quantity
  rw [calc_none_of_rows_nil df identifier department 1 h]

/-- Witness for C7 at an identifier matching no transaction. -/
theorem claim_C7_witness :
    rowsOf exDf3 exItemMissing none = [] ∧
      (calculate_proportion exDf3 exItemMissing none 1 = none ∧
        allocate_quantity exDf3 exItemMissing 5 none = none) :=
  ⟨by with_unfolding_all decide,
    claim_C7_no_data_propagation exDf3 exItemMissing none 1 5
      (by with_unfolding_all decide)⟩

/-- C8: for a fixed table, identifier and department filter, raising the
significance threshold never increases the number of retained groups,
the single-group fallback included (an empty result counts 0 groups). -/
theorem claim_C8_threshold_monotone (df : List Transaction) (identifier : String)
    (department : Option String) (t1 t2 : ℚ) (h12 : t1 ≤ t2) :
    (calculate_proportion df identifier department t2).elim 0 List.length ≤
      (calculate_proportion df identifier department t1).elim 0 List.length := by
  simp only [calculate_proportion]
  split_ifs with h1 h2 h3 h4 h5
  · simp
  · simp
  · simp
  · simp
  · simp
  · simp only [Option.elim]
    rw [norm_sort_length, norm_sort_length]
    exact significantRows_length_mono _ t1 t2 h12 h4

/-- Witness for C8 with thresholds 1 and 2 on the {A:60, B:30, C:10} table. -/
theorem claim_C8_witness :
    (calculate_proportion exDf3 exItemMilk none 2).elim 0 List.length ≤
      (calculate_proportion exDf3 exItemMilk none 1).elim 0 List.length :=
  claim_C8_threshold_monotone exDf3 exItemMilk none 1 2 (by norm_num)

/-- C2 counterexample: for the usage distribution {A: 70, B: 30} and
available quantity 5 the code returns allocations {A:3, B:2} (round half to
even gives 4 and 2, then one unit is removed from A), while the
largest-remainder reference method gives {A:4, B:1} (remainders tie at 0.5
and the larger share wins): the two methods disagree at this input. -/
theorem claim_C2_counterexample :
    calculate_proportion exDf2 exItemCheese none 1 =
        some [{ department := "A", quantity := 70, proportion := 70 },
          { department := "B", quantity := 30, proportion := 30 }] ∧
      (allocate_quantity exDf2 exItemCheese 5 none).map
          (fun l => l.map (fun r => (r.department, r.allocated_quantity)))
        ≠ some (specLargestRemainder [(exDeptA, 70), (exDeptB, 30)] 5) := by
  constructor
  · with_unfolding_all decide
  · with_unfolding_all decide

/-- C2 (amended): the allocations produced by allocate_quantity form a valid
floor-or-ceiling apportionment of the ideal shares — every group receives
⌊share/100·n⌋ or ⌊share/100·n⌋ + 1 unit (and the grand total is exactly n) —
but the recipients of the extra units are chosen by the code's
rounding-based rule, which can disagree with the largest-remainder
tie-break of the claim. -/
theorem claim_C2_amended (df : List Transaction) (identifier : String)
    (department : Option String) (Q : ℚ) (n : ℤ) (res : List AllocRow)
    (hpos : ∀ t ∈ df, 0 < t.quantity) (hQ : Q = (n : ℚ))
    (h : allocate_quantity df identifier Q department = some res) :
    ∀ r ∈ res, ⌊r.proportion / 100 * Q⌋ ≤ r.allocated_quantity ∧
      r.allocated_quantity ≤ ⌊r.proportion / 100 * Q⌋ + 1 := by
  subst hQ
  intro r hr
  have hb := (allocate_quantity_spec df identifier department n res hpos h).2 r hr
  exact ⟨hb.2.1, hb.2.2⟩

/-- Witness for the amended C2 at the distribution {A:70, B:30} and n = 5:
the ideals are 3.5 and 1.5 and the allocations 3 and 2 lie within their
floor/ceiling brackets. -/
theorem claim_C2_witness :
    allocate_quantity exDf2 exItemCheese 5 none = some exRes5 ∧
      ∀ r ∈ exRes5, ⌊r.proportion / 100 * (5 : ℚ)⌋ ≤ r.allocated_quantity ∧
        r.allocated_quantity ≤ ⌊r.proportion / 100 * (5 : ℚ)⌋ + 1 :=
  ⟨by with_unfolding_all decide,
    claim_C2_amended exDf2 exItemCheese none 5 5 exRes5
      (by with_unfolding_all decide) (by norm_num)
      (by with_unfolding_all decide)⟩

/-- C4 counterexample: the identifier "123" consists only of digits, and the
only transaction has serial code "999" (no case-insensitive equality with the
identifier) but item name "cheese 123" (a substring match): the spec's
policy would retain no row, while calculate_proportion matches the
transaction by name containment and returns a distribution. -/
theorem claim_C4_counterexample :
    exDfSerial.filter (fun t => specIdentifierMatch t exIdDigits) = [] ∧
      calculate_proportion exDfSerial exIdDigits none 1 =
        some [{ department := "A", quantity := 5, proportion := 100 }] := by
  constructor
  · with_unfolding_all decide
  · with_unfolding_all decide

/-- C4 (amended): identifier matching never consults the serial-code field —
every identifier, digit-only or not, is matched against the item-name field
by case-insensitive substring containment, so rewriting every transaction's
serial code arbitrarily leaves calculate_proportion unchanged. -/
theorem claim_C4_amended (df : List Transaction) (identifier : String)
    (department : Option String) (min_proportion : ℚ) (f : Transaction → String) :
    calculate_proportion (df.map (fun t => { t with item_serial := f t })) identifier
        department min_proportion
      = calculate_proportion df identifier department min_proportion := by
  have hmatch : matchRows (df.map (fun t => { t with item_serial := f t })) identifier
      = (matchRows df identifier).map (fun t => { t with item_serial := f t }) :=
    filter_map_serial (fun t => containsLower t.item_name identifier) (fun t s => rfl) df f
  have hrows : rowsOf (df.map (fun t => { t with item_serial := f t })) identifier department
      = (rowsOf df identifier department).map (fun t => { t with item_serial := f t }) := by
    unfold rowsOf
    rw [hmatch]
    cases department with
    | none => rfl
    | some d =>
      simp only [deptFilter]
      split_ifs with hc
      · rfl
      · exact filter_map_serial (fun t => decide (t.department = d)) (fun t s => rfl) _ f
  have husage : dept_usage ((rowsOf df identifier department).map
      (fun t => { t with item_serial := f t })) = dept_usage (rowsOf df identifier department) :=
    dept_usage_map_serial (rowsOf df identifier department) f
  have htotal : totalUsage ((rowsOf df identifier department).map
      (fun t => { t with item_serial := f t })) = totalUsage (rowsOf df identifier department) := by
    unfold totalUsage
    rw [husage]
  have hraw : rawRows ((rowsOf df identifier department).map
      (fun t => { t with item_serial := f t })) = rawRows (rowsOf df identifier department) := by
    unfold rawRows
    rw [husage, htotal]
  have hsig : significantRows ((rowsOf df identifier department).map
      (fun t => { t with item_serial := f t })) min_proportion
      = significantRows (rowsOf df identifier department) min_proportion := by
    simp only [significantRows]
    rw [hraw, husage]
  simp only [calculate_proportion, hmatch, hrows, List.map_eq_nil, husage, htotal, hsig]

/-- C5 counterexample: with the matching distribution {A:70, B:30} and
available_quantity = 0, allocate_quantity returns a non-empty all-zero
allocation, not the no-data signal the claim requires. -/
theorem claim_C5_counterexample :
    allocate_quantity exDf2 exItemCheese 0 none = some exRes0 ∧
      allocate_quantity exDf2 exItemCheese 0 none ≠ none := by
  constructor
  · with_unfolding_all decide
  · with_unfolding_all decide

/-- C5 (amended): allocate_quantity performs no validation of
available_quantity: whenever the distribution is non-empty,
available_quantity = 0 yields the distribution with every allocated
quantity equal to 0 — a non-empty result rather than the no-data signal;
the no-data signal arises only from an empty distribution. -/
theorem claim_C5_amended (df : List Transaction) (identifier : String)
    (department : Option String) (props : List PropRow)
    (h : calculate_proportion df identifier department 1 = some props) :
    ∃ res, allocate_quantity df identifier 0 department = some res ∧
      (∀ r ∈ res, r.allocated_quantity = 0) ∧ res ≠ [] := by
  have hall : allocate_quantity df identifier 0 department
      = some ((props.zip (allocCore 0 (props.map (fun r => r.proportion / 100 * 0)))).map
          (fun p => ⟨p.1.department, p.1.quantity, p.1.proportion, p.2⟩)) := by
    unfold allocate_quantity
    rw [h]
  have hideals : props.map (fun r => r.proportion / 100 * 0)
      = props.map (fun _ => (0 : ℚ)) :=
    List.map_congr_left (fun r _ => mul_zero _)
  have hz : roundHalfEven 0 = 0 := by
    unfold roundHalfEven
    norm_num
  have hmapz : (props.map (fun _ => (0 : ℚ))).map roundHalfEven
      = props.map (fun _ => (0 : ℤ)) := by
    rw [List.map_map]
    exact List.map_congr_left (fun r _ => hz)
  have hsum0 : (props.map (fun _ => (0 : ℤ))).sum = 0 :=
    List.sum_eq_zero (fun x hx => by
      obtain ⟨r, _, rfl⟩ := List.mem_map.mp hx
      rfl)
  have hcore : allocCore 0 (props.map (fun r => r.proportion / 100 * 0))
      = props.map (fun _ => (0 : ℤ)) := by
    rw [hideals]
    simp only [allocCore]
    rw [hmapz, hsum0]
    have hdiff : truncToInt ((0 : ℚ) - ((0 : ℤ) : ℚ)) = 0 := by
      unfold truncToInt
      norm_num
    rw [hdiff]
    norm_num
  refine ⟨_, hall, ?_, ?_⟩
  · intro r hr
    obtain ⟨p, hp, rfl⟩ := List.mem_map.mp hr
    have hp2 := (List.mem_zip hp).2
    rw [hcore] at hp2
    obtain ⟨q, _, hq⟩ := List.mem_map.mp hp2
    exact hq.symm
  · have hne := calc_some_ne_nil df identifier department 1 props h
    intro hcon
    rw [List.map_eq_nil] at hcon
    have hlz : (props.zip (allocCore 0 (props.map (fun r => r.proportion / 100 * 0)))).length
        = props.length := by
      rw [List.length_zip, hcore]
      simp
    rw [hcon] at hlz
    exact hne (List.length_eq_zero.mp hlz.symm)

/-- Witness for the amended C5 at the distribution {A:70, B:30}. -/
theorem claim_C5_witness :
    calculate_proportion exDf2 exItemCheese none 1 =
        some [{ department := "A", quantity := 70, proportion := 70 },
          { department := "B", quantity := 30, proportion := 30 }] ∧
      ∃ res, allocate_quantity exDf2 exItemCheese 0 none = some res ∧
        (∀ r ∈ res, r.allocated_quantity = 0) ∧ res ≠ [] :=
  ⟨by with_unfolding_all decide,
    claim_C5_amended exDf2 exItemCheese none
      [{ department := "A", quantity := 70, proportion := 70 },
        { department := "B", quantity := 30, proportion := 30 }]
      (by with_unfolding_all decide)⟩

/-- C6: with positive quantities, if every group's raw share lies strictly
below the threshold, calculate_proportion returns exactly one group — the
first group attaining the maximal raw share — renormalised to share 100,
rather than returning the no-data signal. -/
theorem claim_C6_single_group_fallback (df : List Transaction) (identifier : String)
    (department : Option String) (min_proportion : ℚ)
    (hpos : ∀ t ∈ df, 0 < t.quantity)
    (hrows : rowsOf df identifier department ≠ [])
    (hall : ∀ r ∈ rawRows (rowsOf df identifier department), r.proportion < min_proportion) :
    calculate_proportion df identifier department min_proportion =
        some [{ firstMax (rawRows (rowsOf df identifier department)) with proportion := 100 }] ∧
      ∀ r ∈ rawRows (rowsOf df identifier department),
        r.proportion ≤ (firstMax (rawRows (rowsOf df identifier department))).proportion := by
  have hq : ∀ t ∈ rowsOf df identifier department, 0 < t.quantity :=
    fun t ht => hpos t (mem_of_mem_rowsOf ht)
  have hmatch_ne : matchRows df identifier ≠ [] := by
    intro hc
    exact hrows (rowsOf_eq_nil_of_match department hc)
  have hdf : df ≠ [] := by
    intro hc
    apply hmatch_ne
    rw [hc]
    rfl
  have husage : dept_usage (rowsOf df identifier department) ≠ [] :=
    dept_usage_ne_nil hrows
  have htot : 0 < totalUsage (rowsOf df identifier department) :=
    totalUsage_pos hq hrows
  have hfm_pos : 0 < (firstMax (rawRows (rowsOf df identifier department))).proportion :=
    rawRows_proportion_pos hq hrows _ (firstMax_mem _ (rawRows_ne_nil hrows))
  refine ⟨?_, fun r hr => firstMax_le _ r hr⟩
  simp only [calculate_proportion]
  rw [if_neg hdf, if_neg hmatch_ne, if_neg hrows, if_neg husage, if_neg (not_le.mpr htot)]
  have hsig : significantRows (rowsOf df identifier department) min_proportion
      = [firstMax (rawRows (rowsOf df identifier department))] := by
    simp only [significantRows]
    rw [if_pos]
    refine ⟨List.filter_eq_nil.mpr ?_, husage⟩
    intro r hr
    simp only [decide_eq_true_eq]
    exact not_le.mpr (hall r hr)
  rw [hsig]
  have hnorm : normalizeRows [firstMax (rawRows (rowsOf df identifier department))]
      = [{ firstMax (rawRows (rowsOf df identifier department)) with proportion := 100 }] := by
    simp only [normalizeRows, List.map_cons, List.map_nil, List.sum_cons, List.sum_nil,
      add_zero]
    rw [if_pos hfm_pos, div_self (ne_of_gt hfm_pos), one_mul]
  rw [hnorm]
  rfl

/-- Witness for C6: with threshold 200 every raw share of {A:60, B:40} is
below the threshold and the single group A is returned with share 100. -/
theorem claim_C6_witness :
    (∀ r ∈ rawRows (rowsOf exDf3 exItemMilk none), r.proportion < 200) ∧
      (calculate_proportion exDf3 exItemMilk none 200 =
          some [{ firstMax (rawRows (rowsOf exDf3 exItemMilk none)) with proportion := 100 }] ∧
        ∀ r ∈ rawRows (rowsOf exDf3 exItemMilk none),
          r.proportion ≤ (firstMax (rawRows (rowsOf exDf3 exItemMilk none))).proportion) :=
  ⟨by with_unfolding_all decide,
    claim_C6_single_group_fallback exDf3 exItemMilk none 200
      (by with_unfolding_all decide) (by with_unfolding_all decide)
      (by with_unfolding_all decide)⟩

/-- C10: with positive table quantities and a positive integral available
quantity, every allocated quantity returned by allocate_quantity is
non-negative, and each differs from its provisional rounded allocation by at
most one unit. -/
theorem claim_C10_nonneg_allocations (df : List Transaction) (identifier : String)
    (department : Option String) (Q : ℚ) (n : ℤ) (res : List AllocRow)
    (hpos : ∀ t ∈ df, 0 < t.quantity) (hQ : Q = (n : ℚ)) (hn : 0 < n)
    (h : allocate_quantity df identifier Q department = some res) :
    ∀ r ∈ res, 0 ≤ r.allocated_quantity ∧
      (r.allocated_quantity - roundHalfEven (r.proportion / 100 * Q)).natAbs ≤ 1 := by
  subst hQ
  intro r hr
  obtain ⟨hp, hb1, hb2⟩ := (allocate_quantity_spec df identifier department n res hpos h).2 r hr
  have hx0 : (0 : ℚ) ≤ r.proportion / 100 * (n : ℚ) := by
    have hn' : (0 : ℚ) ≤ (n : ℚ) := by exact_mod_cast hn.le
    have := le_of_lt hp
    positivity
  have hfl0 : 0 ≤ ⌊r.proportion / 100 * (n : ℚ)⌋ := Int.floor_nonneg.mpr hx0
  rcases roundHalfEven_eq_floor_or (r.proportion / 100 * (n : ℚ)) with hre | hre <;>
    constructor <;> omega

/-- Witness for C10 at the {A:70, B:30} table with n = 5: the allocations
{3, 2} are non-negative and within one unit of the rounded ideals {4, 2}. -/
theorem claim_C10_witness :
    allocate_quantity exDf2 exItemCheese 5 none = some exRes5 ∧
      ∀ r ∈ exRes5, 0 ≤ r.allocated_quantity ∧
        (r.allocated_quantity - roundHalfEven (r.proportion / 100 * (5 : ℚ))).natAbs ≤ 1 :=
  ⟨by with_unfolding_all decide,
    claim_C10_nonneg_allocations exDf2 exItemCheese none 5 5 exRes5
      (by with_unfolding_all decide) (by norm_num) (by norm_num)
      (by with_unfolding_all decide)⟩
